import Mathlib

/-!
Verification of the hybrid dungeon-synth audio engine
(src/audio/hybrid_dungeon_synth.rs) against its natural-language
specification.  The Rust code computes with `f32`; arithmetic here is
embedded over `ℚ` (exact rationals) except for `build_scale`, whose
`powf` calls are embedded over `ℝ` with real exponentiation.
-/

namespace HybridSynth

/-! ## CellMatrix (spatial cell aggregation) -/

/-- Embeds `CellMatrix::calculate_local_intensity` (hybrid_dungeon_synth.rs
lines 120-129): counts the cells whose squared distance from `(x, y)` is
at most 9 (the code comment calls this a 3x3 neighborhood), divides by
9.0 and clamps the result to at most 1.0. -/
def calculate_local_intensity (x y : ℤ) (cells : List (ℤ × ℤ)) : ℚ :=
  let neighbor_count := (cells.filter fun c => (c.1 - x) ^ 2 + (c.2 - y) ^ 2 ≤ 9).length
  min ((neighbor_count : ℚ) / 9) 1

/-- Modelled from the spec (section 4.1): the local intensity of a cell is
the fraction of its 3x3 neighborhood that is occupied, i.e. the number of
cells `c` with `|c.1 - x| ≤ 1` and `|c.2 - y| ≤ 1`, divided by 9 and
clamped to at most 1.0.  Stated only to be compared with the source
definition above. -/
def spec_local_intensity (x y : ℤ) (cells : List (ℤ × ℤ)) : ℚ :=
  let neighbor_count := (cells.filter fun c => |c.1 - x| ≤ 1 ∧ |c.2 - y| ≤ 1).length
  min ((neighbor_count : ℚ) / 9) 1

/-- Source constant `max_cells_per_region` (hybrid_dungeon_synth.rs line 23). -/
def max_cells_per_region : ℕ := 50

/-- Embeds the `sample_step` computation of
`CellMatrix::update_with_spatial_grouping` (lines 91-95): stride
`len / 50` when the region holds more than 50 cells, otherwise 1. -/
def sample_step (len : ℕ) : ℕ :=
  if len > max_cells_per_region then len / max_cells_per_region else 1

/-- Embeds the `cell_count` computation of
`CellMatrix::update_with_spatial_grouping` (line 90):
`region_cell_list.len().min(self.max_cells_per_region)`. -/
def cell_count (len : ℕ) : ℕ := min len max_cells_per_region

/-- Embeds the sampling loop header of
`CellMatrix::update_with_spatial_grouping` (line 101):
`for i in (0..region_cell_list.len()).step_by(sample_step).take(cell_count)`.
The indices visited are the multiples of `sample_step len` below `len`,
truncated to the first `cell_count len` of them. -/
def sampled_indices (len : ℕ) : List ℕ :=
  ((List.range len).filter fun i => i % sample_step len = 0).take (cell_count len)

/-- Embeds the region density entry written at line 113:
`cell_count as f32 / self.max_cells_per_region as f32`. -/
def region_density (len : ℕ) : ℚ := (cell_count len : ℚ) / (max_cells_per_region : ℚ)

/-! ## Milestone bell (orchestrator parameter recompute) -/

/-- Embeds the generation feature produced upstream
(ddsp_game_analysis.rs line 128):
`((generation % 1000) as f32) / 1000.0`. -/
def normalized_generation (generation : ℕ) : ℚ := ((generation % 1000 : ℕ) : ℚ) / 1000

/-- Embeds the milestone-bell fragment of
`HybridDungeonSynthEngine::update_all_parameters` (lines 971-976):
`gen_u64 = generation as u64` is a truncating, 0-saturating cast of the
f32 feature, embedded as the natural floor; the bell fires exactly when
`gen_u64 / 100 > last_milestone_generation / 100`, in which case
`last_milestone_generation` is replaced by `gen_u64`.  Returns
(bell fired?, new `last_milestone_generation`). -/
def milestone_check (generation : ℚ) (last_milestone : ℕ) : Bool × ℕ :=
  if last_milestone / 100 < ⌊generation⌋₊ / 100 then (true, ⌊generation⌋₊)
  else (false, last_milestone)

/-! ## Counting lemmas for the sampling stride -/

/-- Among the naturals below `len` there are at least `n` multiples of `s`
provided `n * s ≤ len` and `0 < s`. -/
theorem le_length_filter_mod (len s n : ℕ) (hs : 0 < s) (h : n * s ≤ len) :
    n ≤ ((List.range len).filter fun i => i % s = 0).length := by
  classical
  have hnd : ((List.range len).filter fun i => i % s = 0).Nodup :=
    (List.nodup_range len).filter _
  have hcard : ((List.range len).filter fun i => i % s = 0).toFinset.card =
      ((List.range len).filter fun i => i % s = 0).length :=
    List.toFinset_card_of_nodup hnd
  rw [← hcard]
  have hsub : (Finset.range n).card ≤
      ((List.range len).filter fun i => i % s = 0).toFinset.card := by
    apply Finset.card_le_card_of_injOn fun i => i * s
    · intro i hi
      rw [List.mem_toFinset, List.mem_filter]
      refine ⟨List.mem_range.mpr ?_, ?_⟩
      · have hin : i < n := Finset.mem_range.mp hi
        calc i * s < n * s := mul_lt_mul_of_pos_right hin hs
          _ ≤ len := h
      · simp [Nat.mul_mod_left]
    · intro a _ b _ hab
      exact Nat.eq_of_mul_eq_mul_right hs hab
  simpa using hsub

/-- The sampling loop of `update_with_spatial_grouping` visits exactly
`min len 50` indices of a region with `len` cells. -/
theorem sampled_indices_length (len : ℕ) :
    (sampled_indices len).length = cell_count len := by
  unfold sampled_indices
  rw [List.length_take]
  rcases le_or_lt len max_cells_per_region with h | h
  · have hstep : sample_step len = 1 := by
      unfold sample_step
      rw [if_neg (by omega)]
    rw [hstep]
    have hall : ((List.range len).filter fun i => i % 1 = 0) = List.range len := by
      apply List.filter_eq_self.mpr
      intro a _
      simp [Nat.mod_one]
    rw [hall, List.length_range]
    unfold cell_count max_cells_per_region at *
    omega
  · have hstep : sample_step len = len / max_cells_per_region := by
      unfold sample_step
      rw [if_pos h]
    have hs : 0 < len / max_cells_per_region :=
      Nat.div_pos (le_of_lt h) (by norm_num [max_cells_per_region])
    have h50 : 50 * (len / max_cells_per_region) ≤ len := by
      have hd := Nat.div_mul_le_self len max_cells_per_region
      unfold max_cells_per_region at *
      omega
    have hge := le_length_filter_mod len (len / max_cells_per_region) 50 hs h50
    rw [hstep]
    unfold cell_count max_cells_per_region at *
    omega

/-! ## Theorems for claims C7, C8, C3 -/

/-- C7: the claim says the direct-path local intensity of a cell equals the
occupied fraction of its 3x3 neighborhood (count / 9, clamped to 1).  The
code instead counts every cell within squared Euclidean distance 9, a
radius-3 disc.  At the failing input `cells = [(0,0),(2,0)]`, cell `(0,0)`:
the code yields 2/9 — the cell at `(2,0)` is counted although it lies
outside the 3x3 neighborhood — while the specified value is 1/9. -/
theorem local_intensity_counts_radius3_disc_not_3x3 :
    calculate_local_intensity 0 0 [(0, 0), (2, 0)] = 2 / 9 ∧
      spec_local_intensity 0 0 [(0, 0), (2, 0)] = 1 / 9 ∧
      calculate_local_intensity 0 0 [(0, 0), (2, 0)] ≠
        spec_local_intensity 0 0 [(0, 0), (2, 0)] := by
  have h1 : calculate_local_intensity 0 0 [(0, 0), (2, 0)] = 2 / 9 := by
    have hf : calculate_local_intensity 0 0 [(0, 0), (2, 0)] = min ((2 : ℚ) / 9) 1 := by
      norm_num [calculate_local_intensity, List.filter]
    rw [hf, min_eq_left (by norm_num)]
  have h2 : spec_local_intensity 0 0 [(0, 0), (2, 0)] = 1 / 9 := by
    have hf : spec_local_intensity 0 0 [(0, 0), (2, 0)] = min ((1 : ℚ) / 9) 1 := by
      norm_num [spec_local_intensity, List.filter]
    rw [hf, min_eq_left (by norm_num)]
  refine ⟨h1, h2, ?_⟩
  rw [h1, h2]
  norm_num

/-- C8: in the spatially-grouped path, every region inspects at most 50
cells (the sampling loop visits `min len 50` indices), and the density
entry written for the region equals the sampled count divided by 50. -/
theorem region_sampling_inspects_at_most_50 :
    ∀ len : ℕ, (sampled_indices len).length ≤ 50 ∧
      region_density len = ((sampled_indices len).length : ℚ) / 50 := by
  intro len
  have h := sampled_indices_length len
  constructor
  · rw [h]
    unfold cell_count max_cells_per_region
    omega
  · rw [h]
    unfold region_density max_cells_per_region
    norm_num

/-- C3: the milestone bell can never fire.  Upstream, the generation
feature is normalized to `(generation % 1000) / 1000 < 1`, so the
truncating cast `generation as u64` in `update_all_parameters` is always
0, `gen_u64 / 100` is always 0, and the strict comparison with
`last_milestone_generation / 100 ≥ 0` is always false — in particular the
bell does not fire (even once) as the generation counter crosses 100. -/
theorem milestone_bell_never_fires :
    (∀ g last : ℕ, (milestone_check (normalized_generation g) last).1 = false) ∧
      (milestone_check (normalized_generation 100) 0).1 = false := by
  have hmain : ∀ g last : ℕ, (milestone_check (normalized_generation g) last).1 = false := by
    intro g last
    unfold milestone_check normalized_generation
    have hlt : ((g % 1000 : ℕ) : ℚ) / 1000 < 1 := by
      rw [div_lt_one (by norm_num)]
      exact_mod_cast Nat.mod_lt g (by norm_num)
    have hfl : ⌊((g % 1000 : ℕ) : ℚ) / 1000⌋₊ = 0 := Nat.floor_eq_zero.mpr hlt
    rw [hfl]
    rw [if_neg (by omega)]
  exact ⟨hmain, hmain 100 0⟩

/-! ## AdaptiveLimiter (`master_limiter`) -/

/-- Embeds `f32::signum` for non-NaN inputs: -1 for negative values,
otherwise 1 (Rust returns 1.0 for +0.0; ℚ has a single zero). -/
def signum (x : ℚ) : ℚ := if x < 0 then -1 else 1

/-- Embeds the first soft-limit stage of
`HybridDungeonSynthEngine::master_limiter` (lines 1119-1125): above
threshold 0.7 the excess is scaled by the compression ratio `r`. -/
def soft_stage1 (r g : ℚ) : ℚ :=
  if |g| > 7 / 10 then signum g * (7 / 10 + (|g| - 7 / 10) * r) else g

/-- Embeds the second soft-limit stage of `master_limiter`
(lines 1127-1133): above threshold 0.85 the excess is scaled by 0.1 and
the result is capped at the absolute ceiling 0.95. -/
def soft_stage2 (v : ℚ) : ℚ :=
  if |v| > 17 / 20 then signum v * min (17 / 20 + (|v| - 17 / 20) * (1 / 10)) (19 / 20)
  else v

/-- The two-stage shaping of `master_limiter` applied to the gained input
`g` with first-stage compression ratio `r`. -/
def limiter_shape (r g : ℚ) : ℚ := soft_stage2 (soft_stage1 r g)

/-- The adaptive state of `master_limiter`: fields `peak_detector`,
`compression_ratio` and `master_gain` of `HybridDungeonSynthEngine`. -/
structure LimiterState where
  peak_detector : ℚ
  compression_ratio : ℚ
  master_gain : ℚ

/-- Initial limiter state from `HybridDungeonSynthEngine::new`
(lines 893-895): `master_gain = 1.0`, `peak_detector = 0.0`,
`compression_ratio = 1.0`. -/
def limiter_init : LimiterState := ⟨0, 1, 1⟩

/-- Embeds `HybridDungeonSynthEngine::master_limiter` (lines 1094-1136):
updates the peak detector, adapts the compression ratio and master gain,
then applies the two-stage shaping to the gained input.  Returns
(output, new state). -/
def master_limiter (s : LimiterState) (input : ℚ) : ℚ × LimiterState :=
  let input_level := |input|
  let peak := s.peak_detector * (9995 / 10000) + input_level * (5 / 10000)
  let rg : ℚ × ℚ :=
    if peak > 4 / 5 then
      (min (s.compression_ratio * (999 / 1000) + (3 / 10) * (1 / 1000)) (4 / 5),
        max (s.master_gain * (9999 / 10000) + (7 / 10) * (1 / 10000)) (2 / 5))
    else if peak < 3 / 10 then
      (max (s.compression_ratio * (999 / 1000) + 1 * (1 / 1000)) (3 / 10),
        min (s.master_gain * (9999 / 10000) + 1 * (1 / 10000)) (6 / 5))
    else (s.compression_ratio, s.master_gain)
  (limiter_shape rg.1 (input * rg.2), ⟨peak, rg.1, rg.2⟩)

/-- Embeds the tail of `HybridDungeonSynthEngine::process_sample`
(lines 926-933): `limited = master_limiter(saturated)`, `left = limited`,
`right = limited * 0.96`, return `(left * 0.8, right * 0.8)`.  The
`saturated` argument is the output of the tape-saturation stage for this
call; the synthesis layers feeding it (sine oscillators, sample playback,
FDN reverb, tanh saturator) are transcendental, so their per-call value is
taken as an arbitrary rational input and all theorems below hold for every
possible value of it. -/
def process_sample_out (s : LimiterState) (saturated : ℚ) : (ℚ × ℚ) × LimiterState :=
  let ls := master_limiter s saturated
  ((ls.1 * (8 / 10), ls.1 * (96 / 100) * (8 / 10)), ls.2)

/-- The limiter state after `n` calls to `process_sample` on a freshly
constructed engine, where `saturated k` is the tape-saturation output of
call `k`. -/
def run_engine (saturated : ℕ → ℚ) : ℕ → LimiterState
  | 0 => limiter_init
  | n + 1 => (process_sample_out (run_engine saturated n) (saturated n)).2

/-- The stereo pair returned by call `n` of `process_sample` on a freshly
constructed engine. -/
def engine_output (saturated : ℕ → ℚ) (n : ℕ) : ℚ × ℚ :=
  (process_sample_out (run_engine saturated n) (saturated n)).1

theorem abs_signum (x : ℚ) : |signum x| = 1 := by
  unfold signum
  split_ifs <;> norm_num

/-- The second stage caps the magnitude at 0.95 for every input. -/
theorem abs_soft_stage2_le (v : ℚ) : |soft_stage2 v| ≤ 19 / 20 := by
  unfold soft_stage2
  split_ifs with h
  · rw [abs_mul, abs_signum, one_mul]
    have hnn : (0 : ℚ) ≤ min (17 / 20 + (|v| - 17 / 20) * (1 / 10)) (19 / 20) :=
      le_min (by linarith) (by norm_num)
    rw [abs_of_nonneg hnn]
    exact min_le_right _ _
  · push_neg at h
    linarith

theorem abs_limiter_shape_le (r g : ℚ) : |limiter_shape r g| ≤ 19 / 20 :=
  abs_soft_stage2_le _

theorem abs_master_limiter_le (s : LimiterState) (input : ℚ) :
    |(master_limiter s input).1| ≤ 19 / 20 :=
  abs_limiter_shape_le _ _

/-- C1: on a freshly constructed engine, for every sequence of synthesis
values and for every call index `n` (in particular for the first
10,000 calls), both components of the stereo pair returned by
`process_sample` lie within [-1, 1]: the second limiter stage bounds
`limited` by 0.95 in magnitude, so the outputs are bounded by
0.95·0.8 = 0.76 and 0.95·0.96·0.8 = 0.7296.  This holds for every
feature vector (valid or not), since the features only influence the
synthesis value feeding the limiter. -/
theorem process_sample_output_within_unit :
    ∀ (saturated : ℕ → ℚ) (n : ℕ),
      |(engine_output saturated n).1| ≤ 1 ∧ |(engine_output saturated n).2| ≤ 1 := by
  intro sat n
  have h := abs_master_limiter_le (run_engine sat n) (sat n)
  constructor
  · show |(master_limiter (run_engine sat n) (sat n)).1 * (8 / 10)| ≤ 1
    rw [abs_mul, abs_of_nonneg (show (0 : ℚ) ≤ 8 / 10 by norm_num)]
    nlinarith [abs_nonneg (master_limiter (run_engine sat n) (sat n)).1]
  · show |(master_limiter (run_engine sat n) (sat n)).1 * (96 / 100) * (8 / 10)| ≤ 1
    rw [abs_mul, abs_mul, abs_of_nonneg (show (0 : ℚ) ≤ 96 / 100 by norm_num),
      abs_of_nonneg (show (0 : ℚ) ≤ 8 / 10 by norm_num)]
    nlinarith [abs_nonneg (master_limiter (run_engine sat n) (sat n)).1]

/-- The invariant maintained by the adaptive stage:
`compression_ratio ∈ [0.3, 1.0]` and `master_gain ∈ [0.4, 1.2]`. -/
def limiter_inv (s : LimiterState) : Prop :=
  3 / 10 ≤ s.compression_ratio ∧ s.compression_ratio ≤ 1 ∧
    2 / 5 ≤ s.master_gain ∧ s.master_gain ≤ 6 / 5

/-- C10: the freshly constructed limiter satisfies the invariant
`compression_ratio ∈ [0.3, 1.0]`, `master_gain ∈ [0.4, 1.2]`; every call
preserves it; and under it every call returns a value of magnitude at
most 0.95 for every (finite) input. -/
theorem master_limiter_invariant :
    limiter_inv limiter_init ∧
      ∀ (s : LimiterState) (input : ℚ), limiter_inv s →
        limiter_inv (master_limiter s input).2 ∧
          |(master_limiter s input).1| ≤ 19 / 20 := by
  constructor
  · exact ⟨by norm_num [limiter_init], by norm_num [limiter_init],
      by norm_num [limiter_init], by norm_num [limiter_init]⟩
  · intro s input hinv
    obtain ⟨h1, h2, h3, h4⟩ := hinv
    refine ⟨?_, abs_master_limiter_le s input⟩
    simp only [master_limiter, limiter_inv]
    split_ifs with hp1 hp2
    · refine ⟨le_min (by linarith) (by norm_num),
        le_trans (min_le_right _ _) (by norm_num),
        le_max_right _ _,
        max_le (by linarith) (by norm_num)⟩
    · refine ⟨le_max_right _ _,
        max_le (by linarith) (by norm_num),
        le_min (by linarith) (by norm_num),
        min_le_right _ _⟩
    · exact ⟨h1, h2, h3, h4⟩

/-- Witness for C10: the invariant theorem applied to the concrete state
`limiter_init` and input 1. -/
theorem master_limiter_invariant_witness :
    limiter_inv (master_limiter limiter_init 1).2 ∧
      |(master_limiter limiter_init 1).1| ≤ 19 / 20 :=
  master_limiter_invariant.2 limiter_init 1
    ⟨by norm_num [limiter_init], by norm_num [limiter_init],
      by norm_num [limiter_init], by norm_num [limiter_init]⟩

/-- C6 counterexample: the claim says the shaping output magnitude is
monotonically non-increasing in the applied compression ratio.  For the
gained input 1 (above the first threshold 0.7), ratio 0.3 yields output
0.79 while ratio 1.0 yields output 0.865, so raising the ratio raises the
magnitude: the claimed direction of monotonicity is false. -/
theorem limiter_shape_not_antitone_in_ratio :
    (3 / 10 : ℚ) ≤ 1 ∧ (7 / 10 : ℚ) < |(1 : ℚ)| ∧
      ¬|limiter_shape 1 1| ≤ |limiter_shape (3 / 10) 1| := by
  have e1 : limiter_shape (3 / 10) 1 = 79 / 100 := by
    have s1 : soft_stage1 (3 / 10) 1 = 79 / 100 := by
      unfold soft_stage1 signum
      rw [if_pos (by rw [abs_one]; norm_num), if_neg (by norm_num)]
      rw [abs_one]
      norm_num
    unfold limiter_shape
    rw [s1]
    unfold soft_stage2
    rw [if_neg (by rw [abs_of_nonneg (show (0 : ℚ) ≤ 79 / 100 by norm_num)]; norm_num)]
  have e2 : limiter_shape 1 1 = 173 / 200 := by
    have s1 : soft_stage1 1 1 = 1 := by
      unfold soft_stage1 signum
      rw [if_pos (by rw [abs_one]; norm_num), if_neg (by norm_num)]
      rw [abs_one]
      norm_num
    unfold limiter_shape
    rw [s1]
    unfold soft_stage2 signum
    rw [if_pos (by rw [abs_one]; norm_num), if_neg (by norm_num), abs_one,
      min_eq_left (by norm_num)]
    norm_num
  rw [e1, e2, abs_of_nonneg (show (0 : ℚ) ≤ 173 / 200 by norm_num),
    abs_of_nonneg (show (0 : ℚ) ≤ 79 / 100 by norm_num), abs_one]
  norm_num

/-- Monotonicity of the second-stage magnitude formula in the magnitude of
its input. -/
theorem stage2_formula_mono (m1 m2 : ℚ) (h12 : m1 ≤ m2) :
    (if 17 / 20 < m1 then min (17 / 20 + (m1 - 17 / 20) * (1 / 10)) (19 / 20) else m1) ≤
      (if 17 / 20 < m2 then min (17 / 20 + (m2 - 17 / 20) * (1 / 10)) (19 / 20) else m2) := by
  rcases lt_or_le (17 / 20 : ℚ) m1 with ha | ha
  · rw [if_pos ha, if_pos (lt_of_lt_of_le ha h12)]
    exact min_le_min (by linarith) le_rfl
  · rw [if_neg (not_lt.mpr ha)]
    rcases lt_or_le (17 / 20 : ℚ) m2 with hb | hb
    · rw [if_pos hb]
      exact le_min (by linarith) (by linarith)
    · rw [if_neg (not_lt.mpr hb)]
      exact h12

/-- The magnitude of the second stage on an input of sign `signum g` and
magnitude `m > 0`, as an explicit formula. -/
theorem abs_soft_stage2_signum (g m : ℚ) (hm : 0 < m) :
    |soft_stage2 (signum g * m)| =
      if 17 / 20 < m then min (17 / 20 + (m - 17 / 20) * (1 / 10)) (19 / 20) else m := by
  have habs : |signum g * m| = m := by
    rw [abs_mul, abs_signum, one_mul, abs_of_pos hm]
  unfold soft_stage2
  rw [habs]
  split_ifs with h
  · rw [abs_mul, abs_signum, one_mul]
    exact abs_of_nonneg (le_min (by linarith) (by norm_num))
  · exact habs

/-- C6 amended: for a fixed gained input above the first threshold
(|g| > 0.7) and nonnegative ratios, the magnitude of the two-stage
shaping output is monotonically non-DEcreasing in the applied compression
ratio (a larger ratio compresses less). -/
theorem limiter_shape_mono_in_ratio (g r1 r2 : ℚ) (hg : 7 / 10 < |g|)
    (hr0 : 0 ≤ r1) (hr : r1 ≤ r2) :
    |limiter_shape r1 g| ≤ |limiter_shape r2 g| := by
  have hgd : (0 : ℚ) < |g| - 7 / 10 := by linarith
  have hp1 : (0 : ℚ) ≤ (|g| - 7 / 10) * r1 := mul_nonneg hgd.le hr0
  have hp2 : (0 : ℚ) ≤ (|g| - 7 / 10) * r2 := mul_nonneg hgd.le (hr0.trans hr)
  have hm1 : (0 : ℚ) < 7 / 10 + (|g| - 7 / 10) * r1 := by linarith
  have hm2 : (0 : ℚ) < 7 / 10 + (|g| - 7 / 10) * r2 := by linarith
  have hm12 : 7 / 10 + (|g| - 7 / 10) * r1 ≤ 7 / 10 + (|g| - 7 / 10) * r2 := by
    have := mul_le_mul_of_nonneg_left hr hgd.le
    linarith
  have hshape : ∀ r : ℚ,
      limiter_shape r g = soft_stage2 (signum g * (7 / 10 + (|g| - 7 / 10) * r)) := by
    intro r
    unfold limiter_shape soft_stage1
    rw [if_pos hg]
  rw [hshape r1, hshape r2, abs_soft_stage2_signum g _ hm1, abs_soft_stage2_signum g _ hm2]
  exact stage2_formula_mono _ _ hm12

/-- Witness for the amended C6 theorem at the concrete input `g = 1`,
ratios 0.3 and 1. -/
theorem limiter_shape_mono_in_ratio_witness :
    |limiter_shape (3 / 10) 1| ≤ |limiter_shape 1 1| :=
  limiter_shape_mono_in_ratio 1 (3 / 10) 1 (by norm_num) (by norm_num) (by norm_num)

/-! ## MedievalSampleBank (bounded-polyphony voice pool)

The procedurally generated sample buffers use `sin`/`exp`, and the
triggers use `rand::random`; buffers are therefore carried as abstract
rational lists and each random draw is an explicit oracle argument
`r1 r2 r3`, so every theorem holds for all possible buffer contents and
random values. -/

/-- One entry of the lute/bell sample banks (struct `SampleData`). -/
structure SampleData where
  data : List ℚ
  base_frequency : ℚ

/-- One live voice (struct `PlayingVoice`). -/
structure PlayingVoice where
  sample_data : List ℚ
  position : ℚ
  pitch_ratio : ℚ
  amplitude : ℚ
  decay_rate : ℚ

/-- The voice bank (struct `MedievalSampleBank`). -/
structure MedievalSampleBank where
  lute_samples : List SampleData
  bell_samples : List SampleData
  current_voices : List PlayingVoice

/-- Embeds `find_closest_lute_sample` / `find_closest_bell_sample`
(lines 607-623): `min_by` on the distance between base frequency and the
target; Rust `Iterator::min_by` keeps the last of equally minimal
elements, hence the tie goes to the later element in the fold. -/
def find_closest (samples : List SampleData) (target : ℚ) : Option SampleData :=
  match samples with
  | [] => none
  | s :: rest =>
    some (rest.foldl
      (fun acc b =>
        if |acc.base_frequency - target| < |b.base_frequency - target| then acc else b) s)

/-- Embeds `MedievalSampleBank::trigger_lute` (lines 561-582): rejects if
6 voices are already active, otherwise picks the closest lute sample and
pushes a voice; `r1 r2 r3` are the three `rand::random::<f32>()` draws
(pitch, decay, velocity variation, in source order). -/
def trigger_lute (bank : MedievalSampleBank) (note velocity r1 r2 r3 : ℚ) :
    MedievalSampleBank :=
  if 6 ≤ bank.current_voices.length then bank
  else
    match find_closest bank.lute_samples note with
    | none => bank
    | some sample =>
      let pitch_variation := 1 + (r1 - 1 / 2) * (1 / 100)
      let decay_variation := 998 / 1000 + r2 * (2 / 1000)
      let velocity_variation := velocity * (6 / 10 + r3 * (3 / 10))
      { bank with
          current_voices := bank.current_voices ++
            [⟨sample.data, 0, note / sample.base_frequency * pitch_variation,
              velocity_variation * (7 / 10), decay_variation⟩] }

/-- Embeds `MedievalSampleBank::trigger_bell` (lines 584-605): same
admission control, bell constants; `r1 r2 r3` are the pitch, velocity and
decay random draws (source order). -/
def trigger_bell (bank : MedievalSampleBank) (note velocity r1 r2 r3 : ℚ) :
    MedievalSampleBank :=
  if 6 ≤ bank.current_voices.length then bank
  else
    match find_closest bank.bell_samples note with
    | none => bank
    | some sample =>
      let pitch_variation := 1 + (r1 - 1 / 2) * (8 / 1000)
      let velocity_variation := velocity * (5 / 10 + r2 * (4 / 10))
      let decay_variation := 9999 / 10000 + r3 * (1 / 10000)
      { bank with
          current_voices := bank.current_voices ++
            [⟨sample.data, 0, note / sample.base_frequency * pitch_variation,
              velocity_variation * (6 / 10), decay_variation⟩] }

/-- Embeds `MedievalSampleBank::soft_limit` (lines 655-665). -/
def soft_limit (input : ℚ) : ℚ :=
  if |input| > 8 / 10 then
    signum input * min (8 / 10 + (|input| - 8 / 10) * (2 / 10)) (95 / 100)
  else input

/-- One iteration of the `retain_mut` closure in
`MedievalSampleBank::process` (lines 636-649): a voice whose truncated
position (`voice.position as usize`, embedded as the natural floor) is
past its buffer is dropped; otherwise its sample is accumulated into the
output, position and amplitude advance, and the voice is retained only
while its new amplitude exceeds 0.001. -/
def voice_fold (polyphony_gain : ℚ) (acc : ℚ × List PlayingVoice) (v : PlayingVoice) :
    ℚ × List PlayingVoice :=
  if v.sample_data.length ≤ ⌊v.position⌋₊ then acc
  else
    let sample := v.sample_data.getD ⌊v.position⌋₊ 0
    let out := acc.1 + sample * v.amplitude * polyphony_gain
    let v2 : PlayingVoice :=
      { v with position := v.position + v.pitch_ratio, amplitude := v.amplitude * v.decay_rate }
    if 1 / 1000 < v2.amplitude then (out, acc.2 ++ [v2]) else (out, acc.2)

/-- Embeds `MedievalSampleBank::process` (lines 625-653): polyphony gain
`1/(1 + count·0.15)`, the retain pass over all voices, output scaled by
0.25 and soft-limited. -/
def bank_process (bank : MedievalSampleBank) : ℚ × MedievalSampleBank :=
  let voice_count := bank.current_voices.length
  let polyphony_gain : ℚ :=
    if 0 < voice_count then 1 / (1 + (voice_count : ℚ) * (15 / 100)) else 1
  let res := bank.current_voices.foldl (voice_fold polyphony_gain) (0, [])
  (soft_limit (res.1 * (25 / 100)), { bank with current_voices := res.2 })

/-- One externally observable operation on the voice bank. -/
inductive BankOp where
  | lute (note velocity r1 r2 r3 : ℚ)
  | bell (note velocity r1 r2 r3 : ℚ)
  | tick

/-- Interprets one operation on the bank (`tick` is a `process()` call). -/
def apply_op (bank : MedievalSampleBank) : BankOp → MedievalSampleBank
  | .lute n v a b c => trigger_lute bank n v a b c
  | .bell n v a b c => trigger_bell bank n v a b c
  | .tick => (bank_process bank).2

/-- Runs a sequence of trigger/process operations on the bank. -/
def run_ops (bank : MedievalSampleBank) (ops : List BankOp) : MedievalSampleBank :=
  ops.foldl apply_op bank

/-- The retain pass can only shrink the voice list. -/
theorem voice_fold_length (g : ℚ) :
    ∀ (l : List PlayingVoice) (acc : ℚ × List PlayingVoice),
      (l.foldl (voice_fold g) acc).2.length ≤ acc.2.length + l.length := by
  intro l
  induction l with
  | nil => intro acc; simp
  | cons v t ih =>
    intro acc
    rw [List.foldl_cons]
    have h := ih (voice_fold g acc v)
    have hstep : (voice_fold g acc v).2.length ≤ acc.2.length + 1 := by
      simp only [voice_fold]
      split_ifs <;> simp
    have ht : t.length + 1 = (v :: t).length := by simp
    omega

/-- Each single operation preserves the 6-voice cap. -/
theorem apply_op_cap (bank : MedievalSampleBank) (op : BankOp)
    (h : bank.current_voices.length ≤ 6) :
    (apply_op bank op).current_voices.length ≤ 6 := by
  cases op with
  | lute n v a b c =>
    show (trigger_lute bank n v a b c).current_voices.length ≤ 6
    unfold trigger_lute
    split_ifs with hfull
    · exact h
    · cases hfc : find_closest bank.lute_samples n with
      | none => simp only [hfc]; exact h
      | some sample =>
        simp only [hfc, List.length_append, List.length_singleton]
        omega
  | bell n v a b c =>
    show (trigger_bell bank n v a b c).current_voices.length ≤ 6
    unfold trigger_bell
    split_ifs with hfull
    · exact h
    · cases hfc : find_closest bank.bell_samples n with
      | none => simp only [hfc]; exact h
      | some sample =>
        simp only [hfc, List.length_append, List.length_singleton]
        omega
  | tick =>
    show (bank_process bank).2.current_voices.length ≤ 6
    unfold bank_process
    have hf := voice_fold_length
      (if 0 < bank.current_voices.length then
        1 / (1 + (bank.current_voices.length : ℚ) * (15 / 100)) else 1)
      bank.current_voices (0, [])
    simp only [List.length_nil, Nat.zero_add] at hf
    exact le_trans hf h

/-- Any sequence of operations preserves the 6-voice cap. -/
theorem run_ops_cap :
    ∀ (ops : List BankOp) (bank : MedievalSampleBank),
      bank.current_voices.length ≤ 6 →
        (run_ops bank ops).current_voices.length ≤ 6 := by
  intro ops
  induction ops with
  | nil => intro bank h; exact h
  | cons op t ih =>
    intro bank h
    rw [run_ops, List.foldl_cons]
    exact ih (apply_op bank op) (apply_op_cap bank op h)

/-- C2: under every interleaving of `trigger_lute`, `trigger_bell` and
`process` calls the live-voice count never exceeds 6; a trigger arriving
with 6 active voices returns the bank entirely unchanged; and a burst of
100 `trigger_lute` calls from any admissible state still leaves at most 6
voices. -/
theorem voice_cap_invariant :
    (∀ (bank : MedievalSampleBank) (ops : List BankOp),
        bank.current_voices.length ≤ 6 →
          (run_ops bank ops).current_voices.length ≤ 6) ∧
      (∀ (bank : MedievalSampleBank) (note velocity r1 r2 r3 : ℚ),
          6 ≤ bank.current_voices.length →
            trigger_lute bank note velocity r1 r2 r3 = bank ∧
              trigger_bell bank note velocity r1 r2 r3 = bank) ∧
      (∀ (bank : MedievalSampleBank) (note velocity r1 r2 r3 : ℚ),
          bank.current_voices.length ≤ 6 →
            (run_ops bank
                (List.replicate 100 (BankOp.lute note velocity r1 r2 r3))).current_voices.length
              ≤ 6) := by
  refine ⟨fun bank ops h => run_ops_cap ops bank h, ?_, ?_⟩
  · intro bank note velocity r1 r2 r3 h
    constructor
    · unfold trigger_lute
      rw [if_pos h]
    · unfold trigger_bell
      rw [if_pos h]
  · intro bank note velocity r1 r2 r3 h
    exact run_ops_cap _ bank h

/-- Witness for C2: the three parts of the invariant applied at concrete
banks — the empty bank from `MedievalSampleBank::new`, and a bank already
holding 6 voices. -/
theorem voice_cap_invariant_witness :
    (run_ops ⟨[], [], []⟩ [BankOp.tick]).current_voices.length ≤ 6 ∧
      (trigger_lute ⟨[], [], List.replicate 6 ⟨[], 0, 1, 1, 1⟩⟩ 220 1 0 0 0 =
          ⟨[], [], List.replicate 6 ⟨[], 0, 1, 1, 1⟩⟩ ∧
        trigger_bell ⟨[], [], List.replicate 6 ⟨[], 0, 1, 1, 1⟩⟩ 220 1 0 0 0 =
          ⟨[], [], List.replicate 6 ⟨[], 0, 1, 1, 1⟩⟩) ∧
      (run_ops ⟨[], [], []⟩
          (List.replicate 100 (BankOp.lute 220 1 0 0 0))).current_voices.length ≤ 6 :=
  ⟨voice_cap_invariant.1 ⟨[], [], []⟩ [BankOp.tick] (by simp),
    voice_cap_invariant.2.1 ⟨[], [], List.replicate 6 ⟨[], 0, 1, 1, 1⟩⟩ 220 1 0 0 0 (by simp),
    voice_cap_invariant.2.2 ⟨[], [], []⟩ 220 1 0 0 0 (by simp)⟩

/-! ## Diatonic scale construction (`build_scale`) -/

/-- The `MAJOR` semitone table of `build_scale` (line 1284):
`[0, 2, 4, 5, 7, 9, 11]`, indexed cyclically. -/
def major_scale (i : Fin 7) : ℤ :=
  match (i : ℕ) with
  | 0 => 0
  | 1 => 2
  | 2 => 4
  | 3 => 5
  | 4 => 7
  | 5 => 9
  | _ => 11

/-- Embeds `HybridDungeonSynthEngine::build_scale` (lines 1282-1298):
`rotated[i] = MAJOR[(mode + i) % 7] - MAJOR[mode]` (the
`cycle().skip(mode).take(7)` wrap-around is the modular index, embedded
as wrapping `Fin 7` addition) and
`notes[i] = root_hz * 2f32.powf(rotated[i] / 12.0)`, embedded with real
exponentiation.  The source indexes `MAJOR[mode]` directly, so `mode` is
restricted below 7 (all call sites pass 0-3). -/
noncomputable def build_scale (root_hz : ℝ) (mode : Fin 7) : Fin 7 → ℝ :=
  fun i => root_hz * (2 : ℝ) ^ (((major_scale (mode + i) - major_scale mode : ℤ) : ℝ) / 12)

/-- C9: `build_scale` is a pure function — two calls on identical inputs
give identical outputs (in this shallow embedding, definitional equality
of a function application with itself) — and for mode 0 the first scale
degree is exactly the root: the semitone offset is
`MAJOR[0] - MAJOR[0] = 0` and `2^0 = 1`. -/
theorem build_scale_pure_and_mode0_root :
    (∀ (root_hz : ℝ) (mode : Fin 7), build_scale root_hz mode = build_scale root_hz mode) ∧
      ∀ root_hz : ℝ, build_scale root_hz 0 0 = root_hz := by
  refine ⟨fun _ _ => rfl, fun root => ?_⟩
  unfold build_scale
  norm_num

/-- C5: with root 220 Hz and mode 1, the seventh scale degree is strictly
below the sixth (the wrapped-around semitone offset is
`MAJOR[0] - MAJOR[1] = -2`, not lifted an octave), so the 7 frequencies
are not ascending, contradicting the claim for modes 1-3. -/
theorem build_scale_mode1_not_ascending :
    build_scale 220 1 6 < build_scale 220 1 5 := by
  unfold build_scale
  have h1 : major_scale (1 + 6) - major_scale 1 = -2 := by decide
  have h2 : major_scale (1 + 5) - major_scale 1 = 9 := by decide
  rw [h1, h2]
  have hexp : ((-2 : ℤ) : ℝ) / 12 < ((9 : ℤ) : ℝ) / 12 := by norm_num
  have hpow : (2 : ℝ) ^ (((-2 : ℤ) : ℝ) / 12) < (2 : ℝ) ^ (((9 : ℤ) : ℝ) / 12) :=
    (Real.rpow_lt_rpow_left_iff (by norm_num : (1 : ℝ) < 2)).mpr hexp
  exact mul_lt_mul_of_pos_left hpow (by norm_num)

/-! ## SimpleNeuralModulator (fixed-weight parameter mapper) -/

/-- Embeds `init_dungeon_synth_weights` for `input_weights` (lines
691-700): pattern selected by `i % 4` (the Rust `match` rendered as an
if-chain; the `unreachable!` arm cannot occur).  Indices are the plain
naturals of the source loops. -/
def input_weights (i j : ℕ) : ℚ :=
  if i % 4 = 0 then (if j < 2 then 8 / 10 else 2 / 10)
  else if i % 4 = 1 then (if j = 2 ∨ j = 6 then 9 / 10 else 1 / 10)
  else if i % 4 = 2 then (if 3 < j then 7 / 10 else 3 / 10)
  else 5 / 10 + ((i : ℚ) - 8) * (1 / 10)

/-- Embeds `hidden_bias[i] = -0.5 + (i as f32 / 16.0)` (line 701). -/
def hidden_bias (i : ℕ) : ℚ := -(1 / 2) + (i : ℚ) / 16

/-- Embeds `init_dungeon_synth_weights` for `hidden_weights` (lines
704-714): pattern selected by the output index `i`. -/
def hidden_weights (i j : ℕ) : ℚ :=
  if i = 0 then (if j < 4 then 6 / 10 else 2 / 10)
  else if i = 1 then (if 4 ≤ j ∧ j < 8 then 7 / 10 else 1 / 10)
  else if i = 2 then (if 8 ≤ j ∧ j < 12 then 8 / 10 else 2 / 10)
  else if i = 3 then (if 12 ≤ j then 9 / 10 else 3 / 10)
  else 4 / 10 + (((i + j) % 3 : ℕ) : ℚ) * (2 / 10)

/-- Embeds `output_bias[i] = 0.0` (line 715). -/
def output_bias (_i : ℕ) : ℚ := 0

/-- Embeds `SimpleNeuralModulator::tanh_activation` (lines 742-745):
the rational approximation `x (27 + x²) / (27 + 9 x²)`. -/
def tanh_activation (x : ℚ) : ℚ := x * (27 + x ^ 2) / (27 + 9 * x ^ 2)

/-- Embeds the hidden layer of `SimpleNeuralModulator::forward`
(lines 722-728): `hidden[i] = tanh(bias + Σ_{j<8} inputs[j]·w[i][j])`. -/
def hidden_layer (inputs : ℕ → ℚ) (i : ℕ) : ℚ :=
  tanh_activation (hidden_bias i + ∑ j in Finset.range 8, inputs j * input_weights i j)

/-- Embeds the output layer of `SimpleNeuralModulator::forward`
(lines 730-739): `out[i] = tanh(bias + Σ_{j<16} hidden[j]·w[i][j])`. -/
def forward (inputs : ℕ → ℚ) (i : ℕ) : ℚ :=
  tanh_activation (output_bias i + ∑ j in Finset.range 16, hidden_layer inputs j * hidden_weights i j)

/-- Embeds Rust `f32::clamp`: `max lo (min x hi)`. -/
def rust_clamp (x lo hi : ℚ) : ℚ := max lo (min x hi)

/-- Embeds `SimpleNeuralModulator::get_modulation_values` (lines
747-761): inputs rescaled from [0,1] to [-1,1] and clamped, the
two-layer forward pass, outputs rescaled by `(o + 1) / 2`.  The 8
feature slots and 8 output slots are indexed by naturals; only indices
below 8 are read/produced by the source loops. -/
def get_modulation_values (game_features : ℕ → ℚ) (i : ℕ) : ℚ :=
  (forward (fun j => rust_clamp (game_features j * 2 - 1) (-1) 1) i + 1) / 2

/-- The rational tanh approximation is monotone on all of ℚ: the
difference of the cross-multiplied sides factors as
`9 (y - x) ((x y - 9)² + 3 (x - y)²)`. -/
theorem tanh_activation_mono (x y : ℚ) (h : x ≤ y) :
    tanh_activation x ≤ tanh_activation y := by
  unfold tanh_activation
  rw [div_le_div_iff₀ (by positivity) (by positivity)]
  nlinarith [mul_nonneg (sub_nonneg.mpr h)
    (add_nonneg (sq_nonneg (x * y - 9)) (mul_nonneg (by norm_num : (0 : ℚ) ≤ 3)
      (sq_nonneg (x - y))))]

theorem tanh_activation_neg (x : ℚ) : tanh_activation (-x) = -tanh_activation x := by
  unfold tanh_activation
  ring

theorem abs_tanh_activation_le (x B : ℚ) (h : |x| ≤ B) :
    |tanh_activation x| ≤ tanh_activation B := by
  rcases abs_le.mp h with ⟨h1, h2⟩
  rw [abs_le]
  constructor
  · have hm := tanh_activation_mono (-B) x h1
    rw [tanh_activation_neg] at hm
    linarith
  · exact tanh_activation_mono x B h2

/-- C4 counterexample: feeding the all-ones feature vector (every
component in [0,1], hence valid and finite), the fourth modulation value
strictly exceeds 1 (it equals ≈ 1.0745), contradicting the claim that
all outputs lie in [0,1]: the rational tanh approximation exceeds 1 for
arguments above 3, which the fixed weights produce. -/
theorem modulation_value_exceeds_one :
    ¬ get_modulation_values (fun _ => 1) 3 ≤ 1 := by
  have hin : (fun j : ℕ => rust_clamp ((fun _ : ℕ => (1 : ℚ)) j * 2 - 1) (-1) 1) =
      fun _ : ℕ => (1 : ℚ) := by
    funext j
    unfold rust_clamp
    rw [show (1 : ℚ) * 2 - 1 = 1 by norm_num, min_self,
      max_eq_right (by norm_num : (-1 : ℚ) ≤ 1)]
  unfold get_modulation_values
  rw [hin]
  unfold forward hidden_layer
  norm_num [Finset.sum_range_succ, input_weights, hidden_weights, hidden_bias,
    output_bias, tanh_activation]

theorem abs_input_weights_le (i j : ℕ) (hi : i < 16) : |input_weights i j| ≤ 6 / 5 := by
  unfold input_weights
  have h0 : (0 : ℚ) ≤ (i : ℚ) := Nat.cast_nonneg i
  have h15 : (i : ℚ) ≤ 15 := by exact_mod_cast Nat.lt_succ_iff.mp hi
  split_ifs
  all_goals rw [abs_le]
  all_goals constructor
  all_goals linarith

theorem abs_hidden_bias_le (i : ℕ) (hi : i < 16) : |hidden_bias i| ≤ 1 / 2 := by
  unfold hidden_bias
  have h0 : (0 : ℚ) ≤ (i : ℚ) := Nat.cast_nonneg i
  have h15 : (i : ℚ) ≤ 15 := by exact_mod_cast Nat.lt_succ_iff.mp hi
  rw [abs_le]
  constructor <;> linarith

theorem abs_hidden_weights_le (i j : ℕ) : |hidden_weights i j| ≤ 9 / 10 := by
  unfold hidden_weights
  have h0 : (0 : ℚ) ≤ (((i + j) % 3 : ℕ) : ℚ) := Nat.cast_nonneg _
  have h2 : (((i + j) % 3 : ℕ) : ℚ) ≤ 2 := by
    have hm := Nat.mod_lt (i + j) (show 0 < 3 by norm_num)
    exact_mod_cast Nat.lt_succ_iff.mp hm
  split_ifs
  all_goals rw [abs_le]
  all_goals constructor
  all_goals linarith

/-- C4 amended: for every input vector of (finite) rationals and every
output index, `get_modulation_values` returns a value within
[-0.7, 1.7]; it is a pure function of the input alone (stateless, never
fails), but its outputs are not confined to [0,1]. -/
theorem modulation_values_bounded :
    ∀ (game_features : ℕ → ℚ) (i : ℕ),
      -(7 / 10) ≤ get_modulation_values game_features i ∧
        get_modulation_values game_features i ≤ 17 / 10 := by
  intro f i
  have hnorm : ∀ j : ℕ, |rust_clamp (f j * 2 - 1) (-1) 1| ≤ 1 := by
    intro j
    unfold rust_clamp
    rw [abs_le]
    exact ⟨le_max_left _ _, max_le (by norm_num) (min_le_right _ _)⟩
  have hhidden : ∀ k : ℕ, k < 16 →
      |hidden_layer (fun j => rust_clamp (f j * 2 - 1) (-1) 1) k| ≤ 7 / 5 := by
    intro k hk
    unfold hidden_layer
    have hterm : ∀ j : ℕ,
        |rust_clamp (f j * 2 - 1) (-1) 1 * input_weights k j| ≤ 6 / 5 := by
      intro j
      rw [abs_mul]
      calc |rust_clamp (f j * 2 - 1) (-1) 1| * |input_weights k j|
          ≤ 1 * (6 / 5) :=
            mul_le_mul (hnorm j) (abs_input_weights_le k j hk) (abs_nonneg _) (by norm_num)
        _ = 6 / 5 := by norm_num
    have hsum : |∑ j in Finset.range 8, rust_clamp (f j * 2 - 1) (-1) 1 * input_weights k j|
        ≤ 48 / 5 := by
      calc |∑ j in Finset.range 8, rust_clamp (f j * 2 - 1) (-1) 1 * input_weights k j|
          ≤ ∑ j in Finset.range 8, |rust_clamp (f j * 2 - 1) (-1) 1 * input_weights k j| :=
            Finset.abs_sum_le_sum_abs _ _
        _ ≤ ∑ _j in Finset.range 8, (6 / 5 : ℚ) := Finset.sum_le_sum fun j _ => hterm j
        _ = 48 / 5 := by
            rw [Finset.sum_const, Finset.card_range, nsmul_eq_mul]
            norm_num
    have hpre : |hidden_bias k +
        ∑ j in Finset.range 8, rust_clamp (f j * 2 - 1) (-1) 1 * input_weights k j|
        ≤ 101 / 10 := by
      calc |hidden_bias k +
            ∑ j in Finset.range 8, rust_clamp (f j * 2 - 1) (-1) 1 * input_weights k j|
          ≤ |hidden_bias k| +
            |∑ j in Finset.range 8, rust_clamp (f j * 2 - 1) (-1) 1 * input_weights k j| :=
            abs_add _ _
        _ ≤ 1 / 2 + 48 / 5 := add_le_add (abs_hidden_bias_le k hk) hsum
        _ = 101 / 10 := by norm_num
    have hval : tanh_activation (101 / 10) ≤ 7 / 5 := by
      unfold tanh_activation
      norm_num
    exact le_trans (abs_tanh_activation_le _ _ hpre) hval
  have hout : |forward (fun j => rust_clamp (f j * 2 - 1) (-1) 1) i| ≤ 12 / 5 := by
    unfold forward
    have hterm : ∀ j : ℕ, j < 16 →
        |hidden_layer (fun j => rust_clamp (f j * 2 - 1) (-1) 1) j * hidden_weights i j|
          ≤ 63 / 50 := by
      intro j hj
      rw [abs_mul]
      calc |hidden_layer (fun j => rust_clamp (f j * 2 - 1) (-1) 1) j| * |hidden_weights i j|
          ≤ (7 / 5) * (9 / 10) :=
            mul_le_mul (hhidden j hj) (abs_hidden_weights_le i j) (abs_nonneg _) (by norm_num)
        _ = 63 / 50 := by norm_num
    have hsum : |∑ j in Finset.range 16,
        hidden_layer (fun j => rust_clamp (f j * 2 - 1) (-1) 1) j * hidden_weights i j|
        ≤ 504 / 25 := by
      calc |∑ j in Finset.range 16,
            hidden_layer (fun j => rust_clamp (f j * 2 - 1) (-1) 1) j * hidden_weights i j|
          ≤ ∑ j in Finset.range 16,
            |hidden_layer (fun j => rust_clamp (f j * 2 - 1) (-1) 1) j * hidden_weights i j| :=
            Finset.abs_sum_le_sum_abs _ _
        _ ≤ ∑ _j in Finset.range 16, (63 / 50 : ℚ) :=
            Finset.sum_le_sum fun j hj => hterm j (Finset.mem_range.mp hj)
        _ = 504 / 25 := by
            rw [Finset.sum_const, Finset.card_range, nsmul_eq_mul]
            norm_num
    have hpre : |output_bias i + ∑ j in Finset.range 16,
        hidden_layer (fun j => rust_clamp (f j * 2 - 1) (-1) 1) j * hidden_weights i j|
        ≤ 504 / 25 := by
      rw [output_bias, zero_add]
      exact hsum
    have hval : tanh_activation (504 / 25) ≤ 12 / 5 := by
      unfold tanh_activation
      norm_num
    exact le_trans (abs_tanh_activation_le _ _ hpre) hval
  rcases abs_le.mp hout with ⟨ho1, ho2⟩
  unfold get_modulation_values
  constructor
  · linarith
  · linarith

end HybridSynth
